import Mathlib

/-!
Verification of the flight-routing program in `src/new.py`.

The program builds an undirected graph of airports connected by direct
flights and runs Dijkstra's algorithm to find the cheapest path between
two airports.  This file shallow-embeds the program's data model and
operations and proves the specification claims about them.

Modelling conventions:
* A Python `Airport` namedtuple is `AirportData` (the five fields).
  A Python *object* holding such a value is `AirportObj`: the `oid`
  field models object identity, so Python `a == b` is `a.data = b.data`
  while `a is b` is plain equality of `AirportObj` (two distinct objects
  have distinct `oid`s, and an object determines its data).
* Python floats are modelled as rationals; the external `haversine`
  library is an opaque parameter `hav` mapping two (latitude, longitude)
  pairs to a distance.
* `collections.defaultdict(set)` is an association list from the
  hash key (`AirportData`, since namedtuples hash by value) to the
  stored set, modelled as a list of `AirportObj` deduplicated by value.
  Crucially, indexing a missing key *inserts* an empty entry, which
  `getItem` reproduces.
* `heapq` is modelled by a list with pop-of-minimum under the
  namedtuple lexicographic order (price, then path compared element by
  element on field values).  Among value-equal entries the leftmost is
  taken; this is a deterministic refinement of `heapq`, which is only
  unspecified between fully value-equal routes.
* The `while` loop of `dijkstra` is embedded with an explicit fuel that
  is proved sufficient (`none` models a run that would not finish,
  including the `IndexError` of `path[-1]` on an empty path; both are
  proved unreachable).
-/

/-- The five fields of the `Airport` namedtuple (`src/new.py` line 8). -/
structure AirportData where
  code : String
  name : String
  country : String
  latitude : ℚ
  longitude : ℚ
  deriving DecidableEq

/-- A Python object holding an `Airport` value: `oid` models object
identity (`is`), while Python `==`, hashing and set membership use only
`data`. -/
structure AirportObj where
  oid : Nat
  data : AirportData
  deriving DecidableEq

/-- The `Flight` namedtuple (`src/new.py` line 9): origin and
destination IATA codes. -/
structure Flight where
  origin : String
  destination : String
  deriving DecidableEq

/-- The `Route` namedtuple (`src/new.py` line 10): accumulated price and
the path travelled so far. -/
structure Route where
  price : ℚ
  path : List AirportObj
  deriving DecidableEq

/-- The two shapes `Graph.dijkstra` can return (`src/new.py` lines 99 and
108): the tuple `(price, path)` on success, or the bare float
`float('infinity')` when the queue empties. -/
inductive SearchOutcome where
  | route (price : ℚ) (path : List AirportObj)
  | infinity
  deriving DecidableEq

/-- Comparison of rationals, as Python compares floats. -/
def cmpQ (a b : ℚ) : Ordering :=
  if a < b then .lt else if a = b then .eq else .gt

/-- Comparison of strings, as Python compares strings. -/
def cmpStr (a b : String) : Ordering :=
  if a < b then .lt else if a = b then .eq else .gt

/-- Python comparison of two `Airport` namedtuples: lexicographic on the
fields in declaration order. -/
def cmpData (a b : AirportData) : Ordering :=
  (cmpStr a.code b.code).then ((cmpStr a.name b.name).then
    ((cmpStr a.country b.country).then
      ((cmpQ a.latitude b.latitude).then (cmpQ a.longitude b.longitude))))

/-- Python comparison of two lists of `Airport` objects: element by
element on values, shorter prefix first. -/
def cmpPath : List AirportObj → List AirportObj → Ordering
  | [], [] => .eq
  | [], _ :: _ => .lt
  | _ :: _, [] => .gt
  | a :: s, b :: t => (cmpData a.data b.data).then (cmpPath s t)

/-- Python comparison of two `Route` namedtuples: price first, then
path. -/
def cmpRoute (a b : Route) : Ordering :=
  (cmpQ a.price b.price).then (cmpPath a.path b.path)

/-- `Heap.push` (`src/new.py` line 16): the heap is modelled by the
multiset of its elements. -/
def Heap.push (h : List Route) (r : Route) : List Route := h ++ [r]

/-- `Heap.pop` (`src/new.py` line 19): remove and return the least
element in the Python ordering of `Route` values; `none` on an empty
heap. -/
def Heap.pop : List Route → Option (Route × List Route)
  | [] => none
  | r :: rest =>
    match Heap.pop rest with
    | none => some (r, [])
    | some (m, rest2) =>
      if cmpRoute r m = .gt then some (m, r :: rest2) else some (r, rest)

/-- First-match association-list lookup, modelling Python dict lookup. -/
def lookupList {α β : Type} [DecidableEq α] : List (α × β) → α → Option β
  | [], _ => none
  | (k, v) :: t, d => if k = d then some v else lookupList t d

/-- Replace the value stored at the first entry with the given key;
no-op when the key is absent. -/
def updateList {α β : Type} [DecidableEq α] :
    List (α × β) → α → β → List (α × β)
  | [], _, _ => []
  | (k, v) :: t, d, s => if k = d then (k, s) :: t else (k, v) :: updateList t d s

/-- Python `set.add` on a set of `Airport` objects: a no-op when a
value-equal member is present, otherwise the object is inserted. -/
def setAdd (s : List AirportObj) (n : AirportObj) : List AirportObj :=
  if ∃ x ∈ s, x.data = n.data then s else s ++ [n]

/-- The `Graph` class (`src/new.py` line 51): `_neighbors` maps each
node (hashed by value) to the set of objects connected to it. -/
structure Graph where
  adj : List (AirportData × List AirportObj)
  deriving DecidableEq

/-- The neighbor set read off without side effects: missing keys read as
the empty set. -/
def getSet (g : Graph) (d : AirportData) : List AirportObj :=
  (lookupList g.adj d).getD []

/-- `self._neighbors[node]` on the `defaultdict`: returns the stored set
and, when the key is missing, the graph with a fresh empty entry
inserted for it. -/
def getItem (g : Graph) (d : AirportData) : List AirportObj × Graph :=
  match lookupList g.adj d with
  | some s => (s, g)
  | none => ([], ⟨g.adj ++ [(d, [])]⟩)

/-- `Graph.connect` (`src/new.py` line 56): add each endpoint to the
other's neighbor set.  Each `self._neighbors[node]` goes through the
`defaultdict` item access, then the in-place `set.add` is an update of
that entry. -/
def Graph.connect (g : Graph) (node1 node2 : AirportObj) : Graph :=
  let p1 := getItem g node1.data
  let g2 : Graph := ⟨updateList p1.2.adj node1.data (setAdd p1.1 node2)⟩
  let p2 := getItem g2 node2.data
  ⟨updateList p2.2.adj node2.data (setAdd p2.1 node1)⟩

/-- `Graph.neighbors` (`src/new.py` line 59): `yield from
self._neighbors[node]` — the items of the (possibly freshly inserted)
set, together with the graph after the lookup. -/
def Graph.neighbors (g : Graph) (node : AirportObj) : List AirportObj × Graph :=
  getItem g node.data

/-- The body of `Graph.get_price` (`src/new.py` lines 76-82) as a pure
function of the two argument values: haversine distance between the two
coordinate pairs times the default rate `cents_per_km = 0.1`.  `hav` is
the external `haversine.haversine` function, a parameter of the whole
development. -/
def priceData (hav : ℚ × ℚ → ℚ × ℚ → ℚ) (d1 d2 : AirportData) : ℚ :=
  hav (d1.latitude, d1.longitude) (d2.latitude, d2.longitude) * (1 / 10)

/-- `Graph.get_price` applied to two `Airport` objects; it reads only
their field values. -/
def get_price (hav : ℚ × ℚ → ℚ × ℚ → ℚ) (origin destination : AirportObj) : ℚ :=
  priceData hav origin.data destination.data

/-- The memo table installed by `functools.lru_cache()` on `get_price`:
keys are the *ordered* argument pairs, compared by value as Python
hashes the namedtuples. -/
abbrev PriceCache : Type := List ((AirportData × AirportData) × ℚ)

/-- One call of the cached `Graph.get_price` (`src/new.py` lines 74-82):
returns the price, the cache afterwards, and whether the body was
executed (a cache miss). -/
def get_price_cached (hav : ℚ × ℚ → ℚ × ℚ → ℚ) (cache : PriceCache)
    (origin destination : AirportObj) : ℚ × PriceCache × Bool :=
  match lookupList cache (origin.data, destination.data) with
  | some v => (v, cache, false)
  | none =>
    let v := priceData hav origin.data destination.data
    (v, cache ++ [((origin.data, destination.data), v)], true)

/-- `Graph.load` (`src/new.py` lines 61-73), parametrized by the flight
rows and by the `AIRPORTS` code table (dict lookups are all the source
does with it): connect the two looked-up airports, skipping any flight
whose origin or destination code raises `KeyError`. -/
def Graph.load (tbl : String → Option AirportObj) (flights : List Flight) : Graph :=
  flights.foldl
    (fun world f =>
      match tbl f.origin, tbl f.destination with
      | some origin, some destination => world.connect origin destination
      | _, _ => world)
    ⟨[]⟩

/-- All airport values stored in any neighbor set of the graph (used
for the loop's fuel bound; note keys with empty sets contribute
nothing). -/
def allDatas (g : Graph) : Finset AirportData :=
  (g.adj.flatMap (fun e => e.2.map (fun n => n.data))).toFinset

/-- Total number of stored neighbor-set members, counting every set. -/
def totalSize (g : Graph) : Nat :=
  (g.adj.map (fun e => e.2.length)).sum

/-- The `while routes:` loop of `Graph.dijkstra` (`src/new.py` lines
91-108), with explicit fuel.  `none` models a run that does not finish
within the fuel (or the `IndexError` of `path[-1]` on an empty path);
both are proved unreachable for the fuel chosen in `Graph.dijkstra`. -/
def dijkstraLoop (hav : ℚ × ℚ → ℚ × ℚ → ℚ) (dest : AirportObj) :
    Nat → Graph → List Route → List AirportData → Option (SearchOutcome × Graph)
  | 0, _, _, _ => none
  | fuel + 1, g, heap, visited =>
    match Heap.pop heap with
    | none => some (.infinity, g)
    | some (r, rest) =>
      match r.path.getLast? with
      | none => none
      | some airport =>
        if airport.data ∈ visited then
          dijkstraLoop hav dest fuel g rest visited
        else if airport = dest then
          some (.route r.price r.path, g)
        else
          dijkstraLoop hav dest fuel (g.neighbors airport).2
            (rest ++ ((g.neighbors airport).1.filter
                (fun n => n.data ∉ visited)).map
              (fun n => Route.mk (r.price + get_price hav airport n) (r.path ++ [n])))
            (airport.data :: visited)

/-- Fuel sufficient for the loop to finish: one pop per initial entry,
plus, for every settleable node, its settling pop and the entries it can
push. -/
def fuelBound (g : Graph) (heap : List Route) : Nat :=
  heap.length + (allDatas g).card * (1 + totalSize g) + 1

/-- `Graph.dijkstra` (`src/new.py` lines 83-108): seed the heap with one
route per neighbor of `origin`, mark `origin` visited, and run the
loop. -/
def Graph.dijkstra (hav : ℚ × ℚ → ℚ × ℚ → ℚ) (g : Graph)
    (origin destination : AirportObj) : Option (SearchOutcome × Graph) :=
  let p := g.neighbors origin
  let heap0 := p.1.map (fun n => Route.mk (get_price hav origin n) [origin, n])
  dijkstraLoop hav destination (fuelBound p.2 heap0) p.2 heap0 [origin.data]

/-- The unpacking `distance, path = world.dijkstra(...)` performed by the
caller at `src/new.py` line 114: succeeds exactly on the two-component
tuple shape, fails (`TypeError`) on the bare float. -/
def unpack2 : SearchOutcome → Option (ℚ × List AirportObj)
  | .route price path => some (price, path)
  | .infinity => none

/-- Adjacency at the value level: some object with data `e` is stored in
the neighbor set at key `d`.  `A` abstracts the graph's set-valued
lookup `getSet`. -/
def adjOn (A : AirportData → List AirportObj) (d e : AirportData) : Prop :=
  ∃ n ∈ A d, n.data = e

instance (A : AirportData → List AirportObj) (d e : AirportData) :
    Decidable (adjOn A d e) :=
  inferInstanceAs (Decidable (∃ n ∈ A d, n.data = e))

/-- A path of node values through the graph, starting at `s` and ending
at `t`: consecutive values are adjacent. -/
def IsDataPath (A : AirportData → List AirportObj) (s t : AirportData)
    (P : List AirportData) : Prop :=
  P.head? = some s ∧ P.getLast? = some t ∧ List.Chain' (adjOn A) P

/-- Executable decision procedure for chains of `adjOn` edges, written
with explicit recursion so that concrete instances evaluate inside the
kernel. -/
def decChainAdj (A : AirportData → List AirportObj) :
    ∀ (a : AirportData) (l : List AirportData),
      Decidable (List.Chain (adjOn A) a l)
  | _, [] => isTrue List.Chain.nil
  | a, b :: l =>
    match inferInstanceAs (Decidable (adjOn A a b)), decChainAdj A b l with
    | isTrue h1, isTrue h2 => isTrue (List.Chain.cons h1 h2)
    | isFalse h1, _ => isFalse (fun hc => by
        cases hc with
        | cons h3 h4 => exact h1 h3)
    | _, isFalse h2 => isFalse (fun hc => by
        cases hc with
        | cons h3 h4 => exact h2 h4)

instance (priority := 2000) decChainAdj' (A : AirportData → List AirportObj) :
    ∀ (l : List AirportData), Decidable (List.Chain' (adjOn A) l)
  | [] => isTrue trivial
  | a :: l => decChainAdj A a l

instance (A : AirportData → List AirportObj) (s t : AirportData)
    (P : List AirportData) : Decidable (IsDataPath A s t P) :=
  inferInstanceAs (Decidable (P.head? = some s ∧ P.getLast? = some t ∧
    List.Chain' (adjOn A) P))

/-- The total cost of a path of node values: the sum of `get_price` over
consecutive pairs. -/
def pathCost (hav : ℚ × ℚ → ℚ × ℚ → ℚ) : List AirportData → ℚ
  | [] => 0
  | [_] => 0
  | d1 :: d2 :: t => priceData hav d1 d2 + pathCost hav (d2 :: t)

/-- A stand-in distance function for concrete runs whose outcome does
not depend on distances (the cache and bookkeeping claims). -/
def hv0 : ℚ × ℚ → ℚ × ℚ → ℚ := fun _ _ => 0

/-- Field values of three concrete airports used in concrete runs. -/
def dA : AirportData := ⟨"AAA", "Alpha", "Xl", 0, 0⟩

/-- Field values of the second concrete airport. -/
def dB : AirportData := ⟨"BBB", "Beta", "Xl", 1, 0⟩

/-- Field values of the third concrete airport. -/
def dC : AirportData := ⟨"CCC", "Gamma", "Xl", 2, 0⟩

/-- The first concrete airport object. -/
def oA : AirportObj := ⟨0, dA⟩

/-- The second concrete airport object. -/
def oB : AirportObj := ⟨1, dB⟩

/-- The third concrete airport object. -/
def oC : AirportObj := ⟨2, dC⟩

/-- A *distinct object* carrying the same field values as `oB`: in
Python, `oBcopy == oB` is true but `oBcopy is oB` is false. -/
def oBcopy : AirportObj := ⟨7, dB⟩

/-- A concrete symmetric nonnegative distance function realizing the
triangle case of the specification: the direct hop A-C is dearer than
A-B plus B-C. -/
def hvTri (p q : ℚ × ℚ) : ℚ :=
  if (p = ((0 : ℚ), (0 : ℚ)) ∧ q = ((2 : ℚ), (0 : ℚ))) ∨
      (p = ((2 : ℚ), (0 : ℚ)) ∧ q = ((0 : ℚ), (0 : ℚ))) then 10
  else if p = q then 0
  else 1

/-- The empty graph. -/
def gEmpty : Graph := ⟨[]⟩

/-- The graph with the single edge A-B. -/
def gAB : Graph := gEmpty.connect oA oB

/-- The triangle graph with edges A-B, B-C and A-C. -/
def gTri : Graph := ((gEmpty.connect oA oB).connect oB oC).connect oA oC

/-! ### Comparator and heap lemmas -/

theorem cmpQ_eq_lt {a b : ℚ} : cmpQ a b = .lt ↔ a < b := by
  unfold cmpQ
  split_ifs with h1 h2
  · simp [h1]
  · simp [h2]
  · simp [h1]

theorem cmpQ_eq_gt {a b : ℚ} : cmpQ a b = .gt ↔ b < a := by
  unfold cmpQ
  split_ifs with h1 h2
  · simp [lt_asymm h1]
  · simp [h2]
  · simp [lt_of_le_of_ne (le_of_not_lt h1) (fun hba => h2 hba.symm)]

theorem cmpQ_eq_eq {a b : ℚ} : cmpQ a b = .eq ↔ a = b := by
  unfold cmpQ
  split_ifs with h1 h2
  · simp [ne_of_lt h1]
  · simp [h2]
  · simp [h2]

theorem price_le_of_cmpRoute_gt {a b : Route} (h : cmpRoute a b = .gt) :
    b.price ≤ a.price := by
  rcases hq : cmpQ a.price b.price with _ | _ | _
  · have hlt : cmpRoute a b = .lt := by unfold cmpRoute; rw [hq]; rfl
    rw [hlt] at h
    simp at h
  · exact le_of_eq (cmpQ_eq_eq.mp hq).symm
  · exact le_of_lt (cmpQ_eq_gt.mp hq)

theorem price_le_of_cmpRoute_ne_gt {a b : Route} (h : ¬ cmpRoute a b = .gt) :
    a.price ≤ b.price := by
  rcases hq : cmpQ a.price b.price with _ | _ | _
  · exact le_of_lt (cmpQ_eq_lt.mp hq)
  · exact le_of_eq (cmpQ_eq_eq.mp hq)
  · exact absurd (by unfold cmpRoute; rw [hq]; rfl) h

theorem pop_none_iff {l : List Route} : Heap.pop l = none ↔ l = [] := by
  cases l with
  | nil => simp [Heap.pop]
  | cons r t =>
    simp only [Heap.pop]
    constructor
    · intro h
      rcases hp : Heap.pop t with _ | p <;> rw [hp] at h
      · exact absurd h (by simp)
      · obtain ⟨m, rest2⟩ := p
        by_cases hc : cmpRoute r m = .gt <;> simp [hc] at h
    · intro h
      exact absurd h (by simp)

theorem pop_mem {l rest : List Route} {m : Route} (h : Heap.pop l = some (m, rest)) :
    m ∈ l := by
  induction l generalizing m rest with
  | nil => simp [Heap.pop] at h
  | cons r t ih =>
    simp only [Heap.pop] at h
    rcases hp : Heap.pop t with _ | p <;> rw [hp] at h
    · injection h with h2
      injection h2 with ha hb
      subst ha
      exact List.mem_cons_self r t
    · obtain ⟨m1, rest1⟩ := p
      dsimp only at h
      by_cases hc : cmpRoute r m1 = .gt
      · rw [if_pos hc] at h
        injection h with h2
        injection h2 with ha hb
        subst ha
        exact List.mem_cons_of_mem r (ih hp)
      · rw [if_neg hc] at h
        injection h with h2
        injection h2 with ha hb
        subst ha
        exact List.mem_cons_self r t

theorem pop_elim {l rest : List Route} {m : Route} (h : Heap.pop l = some (m, rest)) :
    ∀ x ∈ l, x = m ∨ x ∈ rest := by
  induction l generalizing m rest with
  | nil => simp [Heap.pop] at h
  | cons r t ih =>
    simp only [Heap.pop] at h
    rcases hp : Heap.pop t with _ | p <;> rw [hp] at h
    · injection h with h2
      injection h2 with ha hb
      subst ha
      intro x hx
      rcases List.mem_cons.mp hx with hx | hx
      · exact Or.inl hx
      · exact absurd hx (by simp [pop_none_iff.mp hp])
    · obtain ⟨m1, rest1⟩ := p
      dsimp only at h
      by_cases hc : cmpRoute r m1 = .gt
      · rw [if_pos hc] at h
        injection h with h2
        injection h2 with ha hb
        subst ha
        subst hb
        intro x hx
        rcases List.mem_cons.mp hx with hx | hx
        · exact Or.inr (by simp [hx])
        · rcases ih hp x hx with hx2 | hx2
          · exact Or.inl hx2
          · exact Or.inr (List.mem_cons_of_mem r hx2)
      · rw [if_neg hc] at h
        injection h with h2
        injection h2 with ha hb
        subst ha
        subst hb
        intro x hx
        rcases List.mem_cons.mp hx with hx | hx
        · exact Or.inl hx
        · exact Or.inr hx

theorem pop_rest_mem {l rest : List Route} {m : Route} (h : Heap.pop l = some (m, rest)) :
    ∀ x ∈ rest, x ∈ l := by
  induction l generalizing m rest with
  | nil => simp [Heap.pop] at h
  | cons r t ih =>
    simp only [Heap.pop] at h
    rcases hp : Heap.pop t with _ | p <;> rw [hp] at h
    · injection h with h2
      injection h2 with ha hb
      subst hb
      intro x hx
      simp at hx
    · obtain ⟨m1, rest1⟩ := p
      dsimp only at h
      by_cases hc : cmpRoute r m1 = .gt
      · rw [if_pos hc] at h
        injection h with h2
        injection h2 with ha hb
        subst hb
        intro x hx
        rcases List.mem_cons.mp hx with hx | hx
        · simp [hx]
        · exact List.mem_cons_of_mem r (ih hp x hx)
      · rw [if_neg hc] at h
        injection h with h2
        injection h2 with ha hb
        subst hb
        intro x hx
        exact List.mem_cons_of_mem r hx

theorem pop_length {l rest : List Route} {m : Route} (h : Heap.pop l = some (m, rest)) :
    rest.length + 1 = l.length := by
  induction l generalizing m rest with
  | nil => simp [Heap.pop] at h
  | cons r t ih =>
    simp only [Heap.pop] at h
    rcases hp : Heap.pop t with _ | p <;> rw [hp] at h
    · injection h with h2
      injection h2 with ha hb
      subst hb
      simp [pop_none_iff.mp hp]
    · obtain ⟨m1, rest1⟩ := p
      dsimp only at h
      by_cases hc : cmpRoute r m1 = .gt
      · rw [if_pos hc] at h
        injection h with h2
        injection h2 with ha hb
        subst hb
        have := ih hp
        simp only [List.length_cons] at this ⊢
        omega
      · rw [if_neg hc] at h
        injection h with h2
        injection h2 with ha hb
        subst hb
        simp

theorem pop_min {l rest : List Route} {m : Route} (h : Heap.pop l = some (m, rest)) :
    ∀ x ∈ l, m.price ≤ x.price := by
  induction l generalizing m rest with
  | nil => simp [Heap.pop] at h
  | cons r t ih =>
    simp only [Heap.pop] at h
    rcases hp : Heap.pop t with _ | p <;> rw [hp] at h
    · injection h with h2
      injection h2 with ha hb
      subst ha
      intro x hx
      rcases List.mem_cons.mp hx with hx | hx
      · simp [hx]
      · exact absurd hx (by simp [pop_none_iff.mp hp])
    · obtain ⟨m1, rest1⟩ := p
      dsimp only at h
      by_cases hc : cmpRoute r m1 = .gt
      · rw [if_pos hc] at h
        injection h with h2
        injection h2 with ha hb
        subst ha
        intro x hx
        rcases List.mem_cons.mp hx with hx | hx
        · exact hx ▸ price_le_of_cmpRoute_gt hc
        · exact ih hp x hx
      · rw [if_neg hc] at h
        injection h with h2
        injection h2 with ha hb
        subst ha
        intro x hx
        rcases List.mem_cons.mp hx with hx | hx
        · exact le_of_eq (by rw [hx])
        · exact le_trans (price_le_of_cmpRoute_ne_gt hc) (ih hp x hx)

/-! ### Association list and graph lemmas -/

theorem lookupList_append_some {α β : Type} [DecidableEq α] {l1 : List (α × β)}
    {d : α} {v : β} (l2 : List (α × β)) (h : lookupList l1 d = some v) :
    lookupList (l1 ++ l2) d = some v := by
  induction l1 with
  | nil => simp [lookupList] at h
  | cons e t ih =>
    obtain ⟨k, w⟩ := e
    simp only [List.cons_append, lookupList] at h ⊢
    by_cases hk : k = d
    · rw [if_pos hk] at h ⊢
      exact h
    · rw [if_neg hk] at h ⊢
      exact ih h

theorem lookupList_append_none {α β : Type} [DecidableEq α] {l1 : List (α × β)}
    {d : α} (l2 : List (α × β)) (h : lookupList l1 d = none) :
    lookupList (l1 ++ l2) d = lookupList l2 d := by
  induction l1 with
  | nil => simp
  | cons e t ih =>
    obtain ⟨k, w⟩ := e
    simp only [List.cons_append, lookupList] at h ⊢
    by_cases hk : k = d
    · rw [if_pos hk] at h
      exact absurd h (by simp)
    · rw [if_neg hk] at h ⊢
      exact ih h

theorem mem_of_lookup_some {α β : Type} [DecidableEq α] {l : List (α × β)}
    {d : α} {v : β} (h : lookupList l d = some v) : (d, v) ∈ l := by
  induction l with
  | nil => simp [lookupList] at h
  | cons e t ih =>
    obtain ⟨k, w⟩ := e
    simp only [lookupList] at h
    by_cases hk : k = d
    · rw [if_pos hk] at h
      injection h with h2
      subst hk
      subst h2
      exact List.mem_cons_self _ t
    · rw [if_neg hk] at h
      exact List.mem_cons_of_mem _ (ih h)

theorem updateList_of_none {α β : Type} [DecidableEq α] {l : List (α × β)}
    {d : α} (s : β) (h : lookupList l d = none) : updateList l d s = l := by
  induction l with
  | nil => rfl
  | cons e t ih =>
    obtain ⟨k, w⟩ := e
    simp only [lookupList] at h
    simp only [updateList]
    by_cases hk : k = d
    · rw [if_pos hk] at h
      exact absurd h (by simp)
    · rw [if_neg hk] at h ⊢
      rw [ih h]

theorem lookup_updateList_self {α β : Type} [DecidableEq α] {l : List (α × β)}
    {d : α} {s0 : β} (s : β) (h : lookupList l d = some s0) :
    lookupList (updateList l d s) d = some s := by
  induction l with
  | nil => simp [lookupList] at h
  | cons e t ih =>
    obtain ⟨k, w⟩ := e
    simp only [lookupList, updateList] at h ⊢
    by_cases hk : k = d
    · rw [if_pos hk]
      simp only [lookupList]
      rw [if_pos hk]
    · rw [if_neg hk] at h ⊢
      simp only [lookupList]
      rw [if_neg hk]
      exact ih h

theorem lookup_updateList_ne {α β : Type} [DecidableEq α] {l : List (α × β)}
    {d d' : α} (s : β) (h : d' ≠ d) :
    lookupList (updateList l d s) d' = lookupList l d' := by
  induction l with
  | nil => rfl
  | cons e t ih =>
    obtain ⟨k, w⟩ := e
    simp only [lookupList, updateList]
    by_cases hk : k = d
    · rw [if_pos hk]
      simp only [lookupList]
      rw [if_neg (by rw [hk]; exact fun he => h he.symm), if_neg (by rw [hk]; exact fun he => h he.symm)]
    · rw [if_neg hk]
      simp only [lookupList]
      by_cases hk2 : k = d'
      · rw [if_pos hk2, if_pos hk2]
      · rw [if_neg hk2, if_neg hk2]
        exact ih

theorem getItem_fst (g : Graph) (d : AirportData) : (getItem g d).1 = getSet g d := by
  unfold getItem getSet
  cases h : lookupList g.adj d <;> simp

theorem getItem_of_key {g : Graph} {d : AirportData}
    (h : lookupList g.adj d ≠ none) : (getItem g d).2 = g := by
  unfold getItem
  cases hl : lookupList g.adj d with
  | none => exact absurd hl h
  | some s => rfl

theorem getItem_lookup (g : Graph) (d : AirportData) :
    lookupList (getItem g d).2.adj d = some ((getItem g d).1) := by
  unfold getItem
  cases hl : lookupList g.adj d with
  | none =>
    show lookupList (g.adj ++ [(d, [])]) d = some []
    rw [lookupList_append_none _ hl]
    simp [lookupList]
  | some s => exact hl

theorem getSet_getItem (g : Graph) (d d' : AirportData) :
    getSet (getItem g d).2 d' = getSet g d' := by
  unfold getItem
  cases hl : lookupList g.adj d with
  | some s => rfl
  | none =>
    show getSet ⟨g.adj ++ [(d, [])]⟩ d' = getSet g d'
    unfold getSet
    cases hl2 : lookupList g.adj d' with
    | some v => rw [lookupList_append_some _ hl2]
    | none =>
      rw [lookupList_append_none _ hl2]
      simp only [lookupList]
      split_ifs <;> simp

theorem lookup_getItem_mono {g : Graph} {d d' : AirportData}
    (h : lookupList g.adj d' ≠ none) :
    lookupList (getItem g d).2.adj d' ≠ none := by
  unfold getItem
  cases hl : lookupList g.adj d with
  | some s => exact h
  | none =>
    show lookupList (g.adj ++ [(d, [])]) d' ≠ none
    cases hl2 : lookupList g.adj d' with
    | some v => rw [lookupList_append_some _ hl2]; simp
    | none => exact absurd hl2 h

theorem allDatas_getItem (g : Graph) (d : AirportData) :
    allDatas (getItem g d).2 = allDatas g := by
  unfold getItem
  cases hl : lookupList g.adj d with
  | some s => rfl
  | none =>
    show allDatas ⟨g.adj ++ [(d, [])]⟩ = allDatas g
    unfold allDatas
    simp

theorem totalSize_getItem (g : Graph) (d : AirportData) :
    totalSize (getItem g d).2 = totalSize g := by
  unfold getItem
  cases hl : lookupList g.adj d with
  | some s => rfl
  | none =>
    show totalSize ⟨g.adj ++ [(d, [])]⟩ = totalSize g
    unfold totalSize
    simp

theorem mem_allDatas {g : Graph} {d : AirportData} {s : List AirportObj}
    {n : AirportObj} (h : lookupList g.adj d = some s) (hn : n ∈ s) :
    n.data ∈ allDatas g := by
  unfold allDatas
  rw [List.mem_toFinset, List.mem_flatMap]
  exact ⟨(d, s), mem_of_lookup_some h, List.mem_map_of_mem _ hn⟩

theorem nat_le_listSum {l : List Nat} {x : Nat} (h : x ∈ l) : x ≤ l.sum := by
  induction l with
  | nil => simp at h
  | cons a t ih =>
    rcases List.mem_cons.mp h with h | h
    · simp [h, List.sum_cons]
    · have := ih h
      simp only [List.sum_cons]
      omega

theorem len_le_totalSize {g : Graph} {d : AirportData} {s : List AirportObj}
    (h : lookupList g.adj d = some s) : s.length ≤ totalSize g := by
  unfold totalSize
  exact nat_le_listSum (List.mem_map_of_mem _ (mem_of_lookup_some h))

/-! ### Path cost and chain lemmas -/

theorem priceData_nonneg {hav : ℚ × ℚ → ℚ × ℚ → ℚ}
    (hnn : ∀ p q, 0 ≤ hav p q) (d1 d2 : AirportData) :
    0 ≤ priceData hav d1 d2 :=
  mul_nonneg (hnn _ _) (by norm_num)

theorem pathCost_nonneg {hav : ℚ × ℚ → ℚ × ℚ → ℚ}
    (hnn : ∀ p q, 0 ≤ hav p q) : ∀ P, 0 ≤ pathCost hav P
  | [] => le_refl 0
  | [_] => le_refl 0
  | d1 :: d2 :: t => by
    have h2 := pathCost_nonneg hnn (d2 :: t)
    simpa [pathCost] using add_nonneg (priceData_nonneg hnn d1 d2) h2

theorem pathCost_append_cons (hav : ℚ × ℚ → ℚ × ℚ → ℚ) :
    ∀ (l : List AirportData) (x : AirportData) (m : List AirportData),
      pathCost hav (l ++ x :: m) = pathCost hav (l ++ [x]) + pathCost hav (x :: m)
  | [], x, m => by simp [pathCost]
  | [a], x, m => by
    simp only [List.cons_append, List.nil_append, pathCost]
    ring
  | a :: b :: t, x, m => by
    have ih := pathCost_append_cons hav (b :: t) x m
    have e1 : pathCost hav ((a :: b :: t) ++ x :: m) =
        priceData hav a b + pathCost hav ((b :: t) ++ x :: m) := rfl
    have e2 : pathCost hav ((a :: b :: t) ++ [x]) =
        priceData hav a b + pathCost hav ((b :: t) ++ [x]) := rfl
    rw [e1, e2, ih]
    ring

theorem pathCost_pair (hav : ℚ × ℚ → ℚ × ℚ → ℚ) (x y : AirportData) :
    pathCost hav [x, y] = priceData hav x y := by
  simp [pathCost]

theorem pathCost_snoc_edge (hav : ℚ × ℚ → ℚ × ℚ → ℚ)
    (pre : List AirportData) (x y : AirportData) :
    pathCost hav (pre ++ [x, y]) = pathCost hav (pre ++ [x]) + priceData hav x y := by
  have h := pathCost_append_cons hav pre x [y]
  simpa [pathCost_pair] using h

theorem pathCost_pair_le {hav : ℚ × ℚ → ℚ × ℚ → ℚ}
    (hnn : ∀ p q, 0 ≤ hav p q) (pre : List AirportData) (x y : AirportData)
    (suf : List AirportData) :
    pathCost hav (pre ++ [x, y]) ≤ pathCost hav (pre ++ x :: y :: suf) := by
  have h1 := pathCost_append_cons hav pre x (y :: suf)
  have h2 := pathCost_snoc_edge hav pre x y
  have h3 : priceData hav x y + pathCost hav (y :: suf) = pathCost hav (x :: y :: suf) := by
    simp [pathCost]
  have h4 := pathCost_nonneg hnn (y :: suf)
  rw [h1, h2, ← h3]
  linarith

theorem chain_of_append_left {α : Type} {R : α → α → Prop} {l m : List α}
    (h : List.Chain' R (l ++ m)) : List.Chain' R l :=
  (List.chain'_append.mp h).1

theorem chain_adj_last {α : Type} {R : α → α → Prop} {pre : List α} {x y : α}
    (h : List.Chain' R (pre ++ [x, y])) : R x y := by
  have h2 : List.Chain' R ((pre ++ [x]) ++ [y]) := by
    simpa [List.append_assoc] using h
  obtain ⟨_, _, hrel⟩ := List.chain'_append.mp h2
  exact hrel x (by simp) y (by simp)

theorem chain_take_pair {α : Type} {R : α → α → Prop} {pre : List α} {x y : α}
    {suf : List α} (h : List.Chain' R (pre ++ x :: y :: suf)) :
    List.Chain' R (pre ++ [x, y]) := by
  have h2 : List.Chain' R ((pre ++ [x, y]) ++ suf) := by
    simpa [List.append_assoc] using h
  exact chain_of_append_left h2

theorem chain_snoc {α : Type} {R : α → α → Prop} {l : List α} {x y : α}
    (h : List.Chain' R (l ++ [x])) (hr : R x y) :
    List.Chain' R ((l ++ [x]) ++ [y]) := by
  rw [List.chain'_append]
  exact ⟨h, List.chain'_singleton y, by simp [hr]⟩

theorem head_append_pair {α : Type} (pre : List α) (x y : α) (suf : List α) :
    (pre ++ x :: y :: suf).head? = (pre ++ [x, y]).head? := by
  cases pre <;> simp

theorem head_append_single {α : Type} (pre : List α) (x y : α) (suf : List α) :
    (pre ++ x :: y :: suf).head? = (pre ++ [x]).head? := by
  cases pre <;> simp

theorem crossing_split (V : List AirportData) :
    ∀ (P : List AirportData) (hd tl : AirportData),
      P.head? = some hd → hd ∈ V → P.getLast? = some tl → tl ∉ V →
      ∃ pre x y suf, P = pre ++ x :: y :: suf ∧ x ∈ V ∧ y ∉ V
  | [], hd, tl => by
    intro hh
    simp at hh
  | [a], hd, tl => by
    intro hh hhd hl htl
    simp at hh hl
    exact absurd (hh ▸ hhd) (hl ▸ htl)
  | a :: b :: t, hd, tl => by
    intro hh hhd hl htl
    simp at hh
    subst hh
    by_cases hb : b ∈ V
    · have hl2 : (b :: t).getLast? = some tl := by
        simpa [List.getLast?_cons_cons] using hl
      obtain ⟨pre, x, y, suf, heq, hx, hy⟩ :=
        crossing_split V (b :: t) b tl rfl hb hl2 htl
      exact ⟨a :: pre, x, y, suf, by simp [heq], hx, hy⟩
    · exact ⟨[], a, b, t, rfl, hhd, hb⟩

/-! ### Loop step equations -/

theorem dijkstraLoop_pop_none {hav : ℚ × ℚ → ℚ × ℚ → ℚ} {dest : AirportObj}
    {fuel : Nat} {g : Graph} {heap : List Route} {visited : List AirportData}
    (hpop : Heap.pop heap = none) :
    dijkstraLoop hav dest (fuel + 1) g heap visited = some (.infinity, g) := by
  simp only [dijkstraLoop, hpop]

theorem dijkstraLoop_last_none {hav : ℚ × ℚ → ℚ × ℚ → ℚ} {dest : AirportObj}
    {fuel : Nat} {g : Graph} {heap rest : List Route} {visited : List AirportData}
    {r : Route} (hpop : Heap.pop heap = some (r, rest))
    (hlast : r.path.getLast? = none) :
    dijkstraLoop hav dest (fuel + 1) g heap visited = none := by
  simp only [dijkstraLoop, hpop, hlast]

theorem dijkstraLoop_pop_some {hav : ℚ × ℚ → ℚ × ℚ → ℚ} {dest : AirportObj}
    {fuel : Nat} {g : Graph} {heap rest : List Route} {visited : List AirportData}
    {r : Route} {a : AirportObj} (hpop : Heap.pop heap = some (r, rest))
    (hlast : r.path.getLast? = some a) :
    dijkstraLoop hav dest (fuel + 1) g heap visited =
      if a.data ∈ visited then dijkstraLoop hav dest fuel g rest visited
      else if a = dest then some (.route r.price r.path, g)
      else dijkstraLoop hav dest fuel (g.neighbors a).2
        (rest ++ ((g.neighbors a).1.filter (fun n => n.data ∉ visited)).map
          (fun n => Route.mk (r.price + get_price hav a n) (r.path ++ [n])))
        (a.data :: visited) := by
  simp only [dijkstraLoop, hpop, hlast]

/-! ### Termination: the chosen fuel always suffices -/

/-- Decreasing measure of the loop state: heap size plus, for every not
yet visited settleable node value, one settling pop and the pushes it
can cause. -/
def phi (g : Graph) (heap : List Route) (visited : List AirportData) : Nat :=
  heap.length + ((allDatas g).filter (fun d => d ∉ visited)).card * (1 + totalSize g)

theorem card_filter_cons {g : Graph} {visited : List AirportData}
    {d : AirportData} (hd : d ∈ allDatas g) (hv : d ∉ visited) :
    ((allDatas g).filter (fun x => x ∉ (d :: visited))).card + 1 =
      ((allDatas g).filter (fun x => x ∉ visited)).card := by
  have hset : (allDatas g).filter (fun x => x ∉ (d :: visited)) =
      ((allDatas g).filter (fun x => x ∉ visited)).erase d := by
    ext x
    simp only [Finset.mem_filter, Finset.mem_erase, List.mem_cons]
    tauto
  have hmem : d ∈ (allDatas g).filter (fun x => x ∉ visited) :=
    Finset.mem_filter.mpr ⟨hd, hv⟩
  rw [hset, Finset.card_erase_of_mem hmem]
  have hpos : 0 < ((allDatas g).filter (fun x => x ∉ visited)).card :=
    Finset.card_pos.mpr ⟨d, hmem⟩
  omega

theorem getSet_length_le (g : Graph) (d : AirportData) :
    (getSet g d).length ≤ totalSize g := by
  unfold getSet
  cases hlk : lookupList g.adj d with
  | none => simp
  | some s => simpa using len_le_totalSize hlk

theorem mem_getSet_allDatas {g : Graph} {d : AirportData} {n : AirportObj}
    (hn : n ∈ getSet g d) : n.data ∈ allDatas g := by
  unfold getSet at hn
  cases hlk : lookupList g.adj d with
  | none => rw [hlk] at hn; simp at hn
  | some s => rw [hlk] at hn; exact mem_allDatas hlk hn

theorem loop_isSome (hav : ℚ × ℚ → ℚ × ℚ → ℚ) (dest : AirportObj) :
    ∀ (fuel : Nat) (g : Graph) (heap : List Route) (visited : List AirportData),
      (∀ r ∈ heap, ∃ a, r.path.getLast? = some a ∧ a.data ∈ allDatas g) →
      phi g heap visited < fuel →
      (dijkstraLoop hav dest fuel g heap visited).isSome := by
  intro fuel
  induction fuel with
  | zero =>
    intro g heap visited _ hphi
    exact absurd hphi (by omega)
  | succ n ih =>
    intro g heap visited hinv hphi
    rcases hpop : Heap.pop heap with _ | ⟨r, rest⟩
    · rw [dijkstraLoop_pop_none hpop]
      simp
    · obtain ⟨a, hlast, hadata⟩ := hinv r (pop_mem hpop)
      rw [dijkstraLoop_pop_some hpop hlast]
      have hlen := pop_length hpop
      by_cases hv : a.data ∈ visited
      · rw [if_pos hv]
        apply ih
        · exact fun r' hr' => hinv r' (pop_rest_mem hpop r' hr')
        · unfold phi at hphi ⊢
          omega
      · rw [if_neg hv]
        by_cases hd : a = dest
        · rw [if_pos hd]
          simp
        · rw [if_neg hd]
          apply ih
          · intro r' hr'
            rcases List.mem_append.mp hr' with hr' | hr'
            · obtain ⟨a', h1, h2⟩ := hinv r' (pop_rest_mem hpop r' hr')
              refine ⟨a', h1, ?_⟩
              show a'.data ∈ allDatas (g.neighbors a).2
              rw [Graph.neighbors, allDatas_getItem]
              exact h2
            · obtain ⟨n, hn, hr2⟩ := List.mem_map.mp hr'
              refine ⟨n, by rw [← hr2]; simp, ?_⟩
              show n.data ∈ allDatas (g.neighbors a).2
              rw [Graph.neighbors, allDatas_getItem]
              have hn2 : n ∈ (g.neighbors a).1 := List.mem_of_mem_filter hn
              rw [Graph.neighbors, getItem_fst] at hn2
              exact mem_getSet_allDatas hn2
          · -- the measure strictly decreases when settling a node
            unfold phi at hphi ⊢
            rw [show allDatas (g.neighbors a).2 = allDatas g from by
                rw [Graph.neighbors, allDatas_getItem],
              show totalSize (g.neighbors a).2 = totalSize g from by
                rw [Graph.neighbors, totalSize_getItem]]
            have hcard := card_filter_cons hadata hv
            have hpush : (((g.neighbors a).1.filter (fun n => n.data ∉ visited)).map
                (fun n => Route.mk (r.price + get_price hav a n) (r.path ++ [n]))).length ≤
                  totalSize g := by
              rw [List.length_map]
              calc ((g.neighbors a).1.filter (fun n => n.data ∉ visited)).length
                  ≤ (g.neighbors a).1.length := List.length_filter_le _ _
                _ = (getSet g a.data).length := by rw [Graph.neighbors, getItem_fst]
                _ ≤ totalSize g := getSet_length_le g a.data
            rw [List.length_append]
            set C1 := ((allDatas g).filter (fun x => x ∉ (a.data :: visited))).card with hC1
            set C0 := ((allDatas g).filter (fun x => x ∉ visited)).card with hC0
            have hexp : C0 * (1 + totalSize g) = C1 * (1 + totalSize g) + (1 + totalSize g) := by
              rw [← hcard]
              ring
            omega

theorem dijkstra_isSome (hav : ℚ × ℚ → ℚ × ℚ → ℚ) (g : Graph)
    (origin destination : AirportObj) :
    (g.dijkstra hav origin destination).isSome := by
  simp only [Graph.dijkstra]
  apply loop_isSome
  · intro r hr
    obtain ⟨n, hn, hr2⟩ := List.mem_map.mp hr
    refine ⟨n, by rw [← hr2]; simp, ?_⟩
    show n.data ∈ allDatas (g.neighbors origin).2
    rw [Graph.neighbors, allDatas_getItem]
    rw [Graph.neighbors, getItem_fst] at hn
    exact mem_getSet_allDatas hn
  · unfold phi fuelBound
    rw [Graph.neighbors, allDatas_getItem, totalSize_getItem]
    have h1 : ((allDatas g).filter (fun d => d ∉ [origin.data])).card ≤
        (allDatas g).card := Finset.card_filter_le _ _
    have h2 : ((allDatas g).filter (fun d => d ∉ [origin.data])).card *
        (1 + totalSize g) ≤ (allDatas g).card * (1 + totalSize g) :=
      Nat.mul_le_mul_right _ h1
    omega

theorem loop_no_route (hav : ℚ × ℚ → ℚ × ℚ → ℚ) (dest : AirportObj) :
    ∀ (fuel : Nat) (g : Graph) (heap : List Route) (visited : List AirportData)
      (out : SearchOutcome) (gout : Graph),
      dijkstraLoop hav dest fuel g heap visited = some (out, gout) →
      dest.data ∈ visited →
      out = .infinity := by
  intro fuel
  induction fuel with
  | zero =>
    intro g heap visited out gout h
    simp [dijkstraLoop] at h
  | succ n ih =>
    intro g heap visited out gout h hdv
    rcases hpop : Heap.pop heap with _ | ⟨r, rest⟩
    · rw [dijkstraLoop_pop_none hpop] at h
      injection h with h2
      injection h2 with h3 h4
      exact h3.symm
    · rcases hlast : r.path.getLast? with _ | a
      · rw [dijkstraLoop_last_none hpop hlast] at h
        exact absurd h (by simp)
      · rw [dijkstraLoop_pop_some hpop hlast] at h
        by_cases hv : a.data ∈ visited
        · rw [if_pos hv] at h
          exact ih g rest visited out gout h hdv
        · rw [if_neg hv] at h
          by_cases hd : a = dest
          · exact absurd (hd ▸ hdv) hv
          · rw [if_neg hd] at h
            exact ih _ _ _ out gout h (List.mem_cons_of_mem _ hdv)

/-! ### Soundness of returned routes -/

theorem head_append_of_ne_nil {α : Type} {l : List α} (m : List α) (h : l ≠ []) :
    (l ++ m).head? = l.head? := by
  cases l with
  | nil => exact absurd rfl h
  | cons a t => simp

theorem exists_append_of_getLast {α : Type} :
    ∀ {l : List α} {x : α}, l.getLast? = some x → ∃ l2, l = l2 ++ [x]
  | [], x => by intro h; simp at h
  | [a], x => by
    intro h
    simp at h
    exact ⟨[], by simp [h]⟩
  | a :: b :: t, x => by
    intro h
    rw [List.getLast?_cons_cons] at h
    obtain ⟨l2, hl2⟩ := exists_append_of_getLast h
    exact ⟨a :: l2, by simp [hl2]⟩

/-- Invariant carried by the heap: every queued route is a real path of
the graph, starting at the origin object, priced at its path cost, and
its final object is stored in some neighbor set. -/
def heapInv (hav : ℚ × ℚ → ℚ × ℚ → ℚ) (A : AirportData → List AirportObj)
    (o : AirportObj) (heap : List Route) : Prop :=
  ∀ r ∈ heap, ∃ a, r.path.getLast? = some a ∧ r.path.head? = some o ∧
    List.Chain' (adjOn A) (r.path.map (fun n => n.data)) ∧
    r.price = pathCost hav (r.path.map (fun n => n.data)) ∧
    (∃ d, a ∈ A d)

theorem heapInv_push {hav : ℚ × ℚ → ℚ × ℚ → ℚ} {A : AirportData → List AirportObj}
    {o : AirportObj} {r : Route} {a n : AirportObj}
    (hlast : r.path.getLast? = some a) (hhead : r.path.head? = some o)
    (hchain : List.Chain' (adjOn A) (r.path.map (fun x => x.data)))
    (hprice : r.price = pathCost hav (r.path.map (fun x => x.data)))
    (hn : n ∈ A a.data) :
    (r.path ++ [n]).getLast? = some n ∧ (r.path ++ [n]).head? = some o ∧
    List.Chain' (adjOn A) ((r.path ++ [n]).map (fun x => x.data)) ∧
    r.price + get_price hav a n = pathCost hav ((r.path ++ [n]).map (fun x => x.data)) := by
  have hne : r.path ≠ [] := by
    intro hnil
    rw [hnil] at hlast
    simp at hlast
  have hmaplast : (r.path.map (fun x => x.data)).getLast? = some a.data := by
    rw [List.getLast?_map, hlast]
    rfl
  obtain ⟨init, hinit⟩ := exists_append_of_getLast hmaplast
  refine ⟨by simp, by rw [head_append_of_ne_nil _ hne]; exact hhead, ?_, ?_⟩
  · rw [List.map_append]
    rw [List.chain'_append]
    refine ⟨hchain, by simp, ?_⟩
    intro x hx y hy
    rw [hmaplast] at hx
    simp at hx hy
    rw [← hx, ← hy]
    exact ⟨n, hn, rfl⟩
  · rw [List.map_append, hinit]
    have he : (init ++ [a.data]) ++ List.map (fun x => x.data) [n] =
        init ++ [a.data, n.data] := by simp
    rw [he, pathCost_snoc_edge, ← hinit, ← hprice]
    rfl

theorem loop_sound (hav : ℚ × ℚ → ℚ × ℚ → ℚ) (A : AirportData → List AirportObj)
    (o dest : AirportObj) :
    ∀ (fuel : Nat) (g : Graph) (heap : List Route) (visited : List AirportData)
      (out : SearchOutcome) (gout : Graph),
      dijkstraLoop hav dest fuel g heap visited = some (out, gout) →
      (∀ d, getSet g d = A d) →
      heapInv hav A o heap →
      ∀ p pa, out = .route p pa →
        pa.head? = some o ∧ pa.getLast? = some dest ∧
        List.Chain' (adjOn A) (pa.map (fun n => n.data)) ∧
        p = pathCost hav (pa.map (fun n => n.data)) ∧ (∃ d, dest ∈ A d) := by
  intro fuel
  induction fuel with
  | zero =>
    intro g heap visited out gout h
    simp [dijkstraLoop] at h
  | succ n ih =>
    intro g heap visited out gout h hg hinv p pa hout
    rcases hpop : Heap.pop heap with _ | ⟨r, rest⟩
    · rw [dijkstraLoop_pop_none hpop] at h
      injection h with h2
      injection h2 with h3 h4
      rw [hout] at h3
      exact absurd h3 (by simp)
    · rcases hlast : r.path.getLast? with _ | a
      · rw [dijkstraLoop_last_none hpop hlast] at h
        exact absurd h (by simp)
      · rw [dijkstraLoop_pop_some hpop hlast] at h
        by_cases hv : a.data ∈ visited
        · rw [if_pos hv] at h
          exact ih g rest visited out gout h hg
            (fun r' hr' => hinv r' (pop_rest_mem hpop r' hr')) p pa hout
        · rw [if_neg hv] at h
          by_cases hd : a = dest
          · rw [if_pos hd] at h
            injection h with h2
            injection h2 with h3 h4
            rw [hout] at h3
            injection h3.symm with hp hpa
            subst hp
            subst hpa
            obtain ⟨a', hlast', hhead, hchain, hprice, hstore⟩ := hinv r (pop_mem hpop)
            have haa : a' = a := by
              rw [hlast] at hlast'
              injection hlast' with he
              exact he.symm
            subst haa
            subst hd
            exact ⟨hhead, hlast, hchain, hprice, hstore⟩
          · rw [if_neg hd] at h
            apply ih _ _ _ out gout h _ _ p pa hout
            · intro d
              show getSet (g.neighbors a).2 d = A d
              rw [Graph.neighbors, getSet_getItem]
              exact hg d
            · intro r' hr'
              rcases List.mem_append.mp hr' with hr' | hr'
              · exact hinv r' (pop_rest_mem hpop r' hr')
              · obtain ⟨m, hm, hr2⟩ := List.mem_map.mp hr'
                obtain ⟨a', hlast', hhead, hchain, hprice, hstore⟩ := hinv r (pop_mem hpop)
                have haa : a = a' := by
                  apply Option.some.inj
                  rw [← hlast]
                  exact hlast'
                subst haa
                have hmem : m ∈ A a.data := by
                  have hm2 : m ∈ (g.neighbors a).1 := List.mem_of_mem_filter hm
                  rw [Graph.neighbors, getItem_fst, hg] at hm2
                  exact hm2
                obtain ⟨h1, h2, h3, h4⟩ := heapInv_push hlast hhead hchain hprice hmem
                exact ⟨m, by rw [← hr2]; exact h1, by rw [← hr2]; exact h2,
                  by rw [← hr2]; exact h3, by rw [← hr2]; exact h4,
                  ⟨a.data, hmem⟩⟩

/-! ### Minimality of the returned route -/

/-- Frontier invariant: every edge of a path from the origin that leaves
the visited region is covered by a queued route ending at the crossing
node, priced at most the path prefix up to that edge. -/
def coverInv (hav : ℚ × ℚ → ℚ × ℚ → ℚ) (A : AirportData → List AirportObj)
    (o : AirportObj) (heap : List Route) (visited : List AirportData) : Prop :=
  ∀ (pre : List AirportData) (x y : AirportData),
    (pre ++ [x, y]).head? = some o.data →
    List.Chain' (adjOn A) (pre ++ [x, y]) →
    x ∈ visited → y ∉ visited →
    ∃ r ∈ heap, (∃ a, r.path.getLast? = some a ∧ a.data = y) ∧
      r.price ≤ pathCost hav (pre ++ [x, y])

theorem pop_price_le_chain {hav : ℚ × ℚ → ℚ × ℚ → ℚ}
    {A : AirportData → List AirportObj} {o : AirportObj}
    {heap rest : List Route} {visited : List AirportData} {r : Route}
    (hnn : ∀ p q, 0 ≤ hav p q)
    (hcover : coverInv hav A o heap visited)
    (hpop : Heap.pop heap = some (r, rest))
    (ho : o.data ∈ visited)
    {Q : List AirportData} {z : AirportData}
    (hheadQ : Q.head? = some o.data) (hchainQ : List.Chain' (adjOn A) Q)
    (hlastQ : Q.getLast? = some z) (hz : z ∉ visited) :
    r.price ≤ pathCost hav Q := by
  obtain ⟨pre, x, y, suf, heq, hx, hy⟩ :=
    crossing_split visited Q o.data z hheadQ ho hlastQ hz
  subst heq
  have hh2 : (pre ++ [x, y]).head? = some o.data := by
    rw [← head_append_pair]
    exact hheadQ
  have hc2 : List.Chain' (adjOn A) (pre ++ [x, y]) := chain_take_pair hchainQ
  obtain ⟨r1, hr1mem, _, hr1price⟩ := hcover pre x y hh2 hc2 hx hy
  calc r.price ≤ r1.price := pop_min hpop r1 hr1mem
    _ ≤ pathCost hav (pre ++ [x, y]) := hr1price
    _ ≤ pathCost hav (pre ++ x :: y :: suf) := pathCost_pair_le hnn pre x y suf

theorem loop_minimal (hav : ℚ × ℚ → ℚ × ℚ → ℚ) (A : AirportData → List AirportObj)
    (o dest : AirportObj) (hnn : ∀ p q, 0 ≤ hav p q) :
    ∀ (fuel : Nat) (g : Graph) (heap : List Route) (visited : List AirportData)
      (out : SearchOutcome) (gout : Graph),
      dijkstraLoop hav dest fuel g heap visited = some (out, gout) →
      (∀ d, getSet g d = A d) →
      o.data ∈ visited →
      coverInv hav A o heap visited →
      ∀ p pa, out = .route p pa →
        ∀ P, P.head? = some o.data → List.Chain' (adjOn A) P →
          P.getLast? = some dest.data → p ≤ pathCost hav P := by
  intro fuel
  induction fuel with
  | zero =>
    intro g heap visited out gout h
    simp [dijkstraLoop] at h
  | succ n ih =>
    intro g heap visited out gout h hg ho hcover p pa hout
    rcases hpop : Heap.pop heap with _ | ⟨r, rest⟩
    · rw [dijkstraLoop_pop_none hpop] at h
      injection h with h2
      injection h2 with h3 h4
      rw [hout] at h3
      exact absurd h3 (by simp)
    · rcases hlast : r.path.getLast? with _ | a
      · rw [dijkstraLoop_last_none hpop hlast] at h
        exact absurd h (by simp)
      · rw [dijkstraLoop_pop_some hpop hlast] at h
        by_cases hv : a.data ∈ visited
        · -- stale entry: the cover is inherited by the remaining heap
          rw [if_pos hv] at h
          apply ih g rest visited out gout h hg ho _ p pa hout
          intro pre x y hh hc hx hy
          obtain ⟨r1, hr1mem, ⟨a1, ha1, ha1y⟩, hr1price⟩ := hcover pre x y hh hc hx hy
          have hne : r1 ≠ r := by
            intro he
            rw [he, hlast] at ha1
            injection ha1 with he2
            rw [← he2] at ha1y
            exact hy (ha1y ▸ hv)
          rcases pop_elim hpop r1 hr1mem with he | hmem
          · exact absurd he hne
          · exact ⟨r1, hmem, ⟨a1, ha1, ha1y⟩, hr1price⟩
        · rw [if_neg hv] at h
          by_cases hd : a = dest
          · -- arrival: the popped minimum beats every path to the destination
            rw [if_pos hd] at h
            injection h with h2
            injection h2 with h3 h4
            rw [hout] at h3
            injection h3.symm with hp hpa
            subst hp
            intro P hheadP hchainP hlastP
            have hz : dest.data ∉ visited := by
              rw [← hd]
              exact hv
            exact pop_price_le_chain hnn hcover hpop ho hheadP hchainP hlastP hz
          · -- settling: rebuild the cover for the extended state
            rw [if_neg hd] at h
            apply ih _ _ _ out gout h _ _ _ p pa hout
            · intro d
              show getSet (g.neighbors a).2 d = A d
              rw [Graph.neighbors, getSet_getItem]
              exact hg d
            · exact List.mem_cons_of_mem _ ho
            · intro pre x y hh hc hx hy
              have hynv : y ∉ visited := fun hyv => hy (List.mem_cons_of_mem _ hyv)
              have hyna : y ≠ a.data := fun hya => hy (hya ▸ List.mem_cons_self _ _)
              rcases List.mem_cons.mp hx with hxa | hxv
              · -- the crossing edge leaves the freshly settled node
                subst hxa
                obtain ⟨m, hmA, hmy⟩ := chain_adj_last hc
                have hmnb : m ∈ (g.neighbors a).1 := by
                  rw [Graph.neighbors, getItem_fst, hg]
                  exact hmA
                have hpush : Route.mk (r.price + get_price hav a m) (r.path ++ [m]) ∈
                    ((g.neighbors a).1.filter (fun n => n.data ∉ visited)).map
                      (fun n => Route.mk (r.price + get_price hav a n) (r.path ++ [n])) := by
                  apply List.mem_map_of_mem
                  rw [List.mem_filter]
                  exact ⟨hmnb, by simp [hmy, hynv]⟩
                refine ⟨Route.mk (r.price + get_price hav a m) (r.path ++ [m]),
                  List.mem_append_right _ hpush, ⟨m, by simp, hmy⟩, ?_⟩
                -- price bound through the settled node
                have hrle : r.price ≤ pathCost hav (pre ++ [a.data]) := by
                  have hne : pre ≠ [] := by
                    intro hnil
                    rw [hnil] at hh
                    simp at hh
                    exact hv (by rw [hh]; exact ho)
                  have hhQ : (pre ++ [a.data]).head? = some o.data := by
                    rw [head_append_of_ne_nil _ hne]
                    rw [head_append_of_ne_nil _ hne] at hh
                    exact hh
                  have hcQ : List.Chain' (adjOn A) (pre ++ [a.data]) := by
                    apply chain_of_append_left (m := [y])
                    simpa [List.append_assoc] using hc
                  exact pop_price_le_chain hnn hcover hpop ho hhQ hcQ (by simp) hv
                have hcost := pathCost_snoc_edge hav pre a.data y
                have hgp : get_price hav a m = priceData hav a.data y := by
                  rw [get_price, hmy]
                simp only [Route.mk.injEq]
                rw [hcost, hgp]
                linarith
              · -- the crossing edge was already covered before settling
                obtain ⟨r1, hr1mem, ⟨a1, ha1, ha1y⟩, hr1price⟩ :=
                  hcover pre x y hh hc hxv hynv
                have hne : r1 ≠ r := by
                  intro he
                  rw [he, hlast] at ha1
                  injection ha1 with he2
                  rw [← he2] at ha1y
                  exact hyna ha1y.symm
                rcases pop_elim hpop r1 hr1mem with he | hmem
                · exact absurd he hne
                · exact ⟨r1, List.mem_append_left _ hmem, ⟨a1, ha1, ha1y⟩, hr1price⟩

/-! ### Top-level facts about `Graph.dijkstra` -/

theorem initial_heapInv (hav : ℚ × ℚ → ℚ × ℚ → ℚ) (g : Graph) (origin : AirportObj) :
    heapInv hav (getSet g) origin
      ((g.neighbors origin).1.map
        (fun n => Route.mk (get_price hav origin n) [origin, n])) := by
  intro r hr
  obtain ⟨n, hn, hr2⟩ := List.mem_map.mp hr
  rw [Graph.neighbors, getItem_fst] at hn
  refine ⟨n, by rw [← hr2]; simp, by rw [← hr2]; rfl, ?_, ?_, ⟨origin.data, hn⟩⟩
  · rw [← hr2]
    show List.Chain' (adjOn (getSet g)) [origin.data, n.data]
    exact List.chain'_pair.mpr ⟨n, hn, rfl⟩
  · rw [← hr2]
    show get_price hav origin n = pathCost hav [origin.data, n.data]
    rw [pathCost_pair]
    rfl

theorem initial_coverInv (hav : ℚ × ℚ → ℚ × ℚ → ℚ) (g : Graph) (origin : AirportObj)
    (hnn : ∀ p q, 0 ≤ hav p q) :
    coverInv hav (getSet g) origin
      ((g.neighbors origin).1.map
        (fun n => Route.mk (get_price hav origin n) [origin, n]))
      [origin.data] := by
  intro pre x y hh hc hx hy
  have hxo : x = origin.data := by simpa using hx
  subst hxo
  obtain ⟨m, hmA, hmy⟩ := chain_adj_last hc
  have hmnb : m ∈ (g.neighbors origin).1 := by
    rw [Graph.neighbors, getItem_fst]
    exact hmA
  refine ⟨Route.mk (get_price hav origin m) [origin, m],
    List.mem_map_of_mem _ hmnb, ⟨m, by simp, hmy⟩, ?_⟩
  show get_price hav origin m ≤ pathCost hav (pre ++ [origin.data, y])
  rw [pathCost_snoc_edge]
  have h1 : get_price hav origin m = priceData hav origin.data y := by
    rw [get_price, hmy]
  have h2 := pathCost_nonneg hnn (pre ++ [origin.data])
  rw [h1]
  linarith

theorem dijkstra_route_spec {hav : ℚ × ℚ → ℚ × ℚ → ℚ} {g : Graph}
    {origin destination : AirportObj} {p : ℚ} {pa : List AirportObj} {gout : Graph}
    (h : g.dijkstra hav origin destination = some (.route p pa, gout)) :
    pa.head? = some origin ∧ pa.getLast? = some destination ∧
    List.Chain' (adjOn (getSet g)) (pa.map (fun n => n.data)) ∧
    p = pathCost hav (pa.map (fun n => n.data)) ∧
    (∃ d, destination ∈ getSet g d) := by
  simp only [Graph.dijkstra] at h
  exact loop_sound hav (getSet g) origin destination _ _ _ _ _ _ h
    (fun d => by rw [Graph.neighbors, getSet_getItem])
    (initial_heapInv hav g origin) p pa rfl

theorem dijkstra_minimal_spec {hav : ℚ × ℚ → ℚ × ℚ → ℚ} {g : Graph}
    {origin destination : AirportObj} {p : ℚ} {pa : List AirportObj} {gout : Graph}
    (hnn : ∀ q1 q2, 0 ≤ hav q1 q2)
    (h : g.dijkstra hav origin destination = some (.route p pa, gout)) :
    ∀ P, P.head? = some origin.data → List.Chain' (adjOn (getSet g)) P →
      P.getLast? = some destination.data → p ≤ pathCost hav P := by
  simp only [Graph.dijkstra] at h
  exact loop_minimal hav (getSet g) origin destination hnn _ _ _ _ _ _ h
    (fun d => by rw [Graph.neighbors, getSet_getItem])
    (by simp)
    (initial_coverInv hav g origin hnn) p pa rfl

/-! ### The search leaves a key-closed graph untouched -/

theorem loop_graph_eq (hav : ℚ × ℚ → ℚ × ℚ → ℚ) (dest : AirportObj) :
    ∀ (fuel : Nat) (g : Graph) (heap : List Route) (visited : List AirportData)
      (out : SearchOutcome) (gout : Graph),
      dijkstraLoop hav dest fuel g heap visited = some (out, gout) →
      (∀ r ∈ heap, ∃ a, r.path.getLast? = some a ∧ lookupList g.adj a.data ≠ none) →
      (∀ e ∈ g.adj, ∀ n ∈ e.2, lookupList g.adj n.data ≠ none) →
      gout = g := by
  intro fuel
  induction fuel with
  | zero =>
    intro g heap visited out gout h
    simp [dijkstraLoop] at h
  | succ n ih =>
    intro g heap visited out gout h hkeys hclosed
    rcases hpop : Heap.pop heap with _ | ⟨r, rest⟩
    · rw [dijkstraLoop_pop_none hpop] at h
      injection h with h2
      injection h2 with h3 h4
      exact h4.symm
    · rcases hlast : r.path.getLast? with _ | a
      · rw [dijkstraLoop_last_none hpop hlast] at h
        exact absurd h (by simp)
      · rw [dijkstraLoop_pop_some hpop hlast] at h
        by_cases hv : a.data ∈ visited
        · rw [if_pos hv] at h
          exact ih g rest visited out gout h
            (fun r' hr' => hkeys r' (pop_rest_mem hpop r' hr')) hclosed
        · rw [if_neg hv] at h
          by_cases hd : a = dest
          · rw [if_pos hd] at h
            injection h with h2
            injection h2 with h3 h4
            exact h4.symm
          · rw [if_neg hd] at h
            obtain ⟨a', hlast', hkey⟩ := hkeys r (pop_mem hpop)
            have haa : a = a' := by
              apply Option.some.inj
              rw [← hlast]
              exact hlast'
            subst haa
            have hgeq : (g.neighbors a).2 = g := by
              rw [Graph.neighbors]
              exact getItem_of_key hkey
            rw [hgeq] at h
            refine ih g _ _ out gout h ?_ hclosed
            intro r' hr'
            rcases List.mem_append.mp hr' with hr' | hr'
            · exact hkeys r' (pop_rest_mem hpop r' hr')
            · obtain ⟨m, hm, hr2⟩ := List.mem_map.mp hr'
              refine ⟨m, by rw [← hr2]; simp, ?_⟩
              have hm2 : m ∈ (g.neighbors a).1 := List.mem_of_mem_filter hm
              rw [Graph.neighbors, getItem_fst] at hm2
              unfold getSet at hm2
              cases hlk : lookupList g.adj a.data with
              | none => rw [hlk] at hm2; simp at hm2
              | some s =>
                rw [hlk] at hm2
                simp only [Option.getD_some] at hm2
                exact hclosed (a.data, s) (mem_of_lookup_some hlk) m hm2

theorem dijkstra_graph_eq {hav : ℚ × ℚ → ℚ × ℚ → ℚ} {g : Graph}
    {origin destination : AirportObj} {out : SearchOutcome} {gout : Graph}
    (h : g.dijkstra hav origin destination = some (out, gout))
    (hkey : lookupList g.adj origin.data ≠ none)
    (hclosed : ∀ e ∈ g.adj, ∀ n ∈ e.2, lookupList g.adj n.data ≠ none) :
    gout = g := by
  simp only [Graph.dijkstra] at h
  have hgeq : (g.neighbors origin).2 = g := by
    rw [Graph.neighbors]
    exact getItem_of_key hkey
  rw [hgeq] at h
  refine loop_graph_eq hav destination _ g _ _ out gout h ?_ hclosed
  intro r hr
  obtain ⟨m, hm, hr2⟩ := List.mem_map.mp hr
  refine ⟨m, by rw [← hr2]; simp, ?_⟩
  rw [Graph.neighbors, getItem_fst] at hm
  unfold getSet at hm
  cases hlk : lookupList g.adj origin.data with
  | none => rw [hlk] at hm; simp at hm
  | some s =>
    rw [hlk] at hm
    simp only [Option.getD_some] at hm
    exact hclosed (origin.data, s) (mem_of_lookup_some hlk) m hm

/-! ### What `connect` and `load` put into the graph -/

theorem adjOn_setAdd {s : List AirportObj} {x : AirportObj} {e : AirportData} :
    (∃ n ∈ setAdd s x, n.data = e) ↔ (∃ n ∈ s, n.data = e) ∨ x.data = e := by
  unfold setAdd
  split_ifs with hex
  · constructor
    · intro h
      exact Or.inl h
    · rintro (h | h)
      · exact h
      · obtain ⟨w, hw, hwd⟩ := hex
        exact ⟨w, hw, by rw [hwd, h]⟩
  · constructor
    · rintro ⟨m, hm, hmd⟩
      rcases List.mem_append.mp hm with hm | hm
      · exact Or.inl ⟨m, hm, hmd⟩
      · simp at hm
        subst hm
        exact Or.inr hmd
    · rintro (⟨m, hm, hmd⟩ | h)
      · exact ⟨m, List.mem_append_left _ hm, hmd⟩
      · exact ⟨x, List.mem_append_right _ (by simp), h⟩

theorem getSet_connect (g : Graph) (a b : AirportObj) (d : AirportData) :
    getSet (g.connect a b) d =
      if d = b.data then
        setAdd (if b.data = a.data then setAdd (getSet g a.data) b
          else getSet g b.data) a
      else if d = a.data then setAdd (getSet g a.data) b
      else getSet g d := by
  have h1 := getItem_lookup g a.data
  have hg2self : getSet ⟨updateList (getItem g a.data).2.adj a.data
      (setAdd (getItem g a.data).1 b)⟩ a.data = setAdd (getSet g a.data) b := by
    show (lookupList (updateList (getItem g a.data).2.adj a.data
      (setAdd (getItem g a.data).1 b)) a.data).getD [] = _
    rw [lookup_updateList_self _ h1]
    simp [getItem_fst]
  have hg2other : ∀ d', d' ≠ a.data → getSet ⟨updateList (getItem g a.data).2.adj a.data
      (setAdd (getItem g a.data).1 b)⟩ d' = getSet g d' := by
    intro d' hd'
    show (lookupList (updateList (getItem g a.data).2.adj a.data
      (setAdd (getItem g a.data).1 b)) d').getD [] = _
    rw [lookup_updateList_ne _ hd']
    exact getSet_getItem g a.data d'
  have h2 := getItem_lookup ⟨updateList (getItem g a.data).2.adj a.data
      (setAdd (getItem g a.data).1 b)⟩ b.data
  have hconn : g.connect a b = ⟨updateList (getItem ⟨updateList (getItem g a.data).2.adj
      a.data (setAdd (getItem g a.data).1 b)⟩ b.data).2.adj b.data
      (setAdd (getItem ⟨updateList (getItem g a.data).2.adj a.data
        (setAdd (getItem g a.data).1 b)⟩ b.data).1 a)⟩ := rfl
  have hg4self : getSet (g.connect a b) b.data =
      setAdd (getSet ⟨updateList (getItem g a.data).2.adj a.data
        (setAdd (getItem g a.data).1 b)⟩ b.data) a := by
    rw [hconn]
    show (lookupList (updateList _ b.data _) b.data).getD [] = _
    rw [lookup_updateList_self _ h2]
    simp [getItem_fst]
  have hg4other : ∀ d', d' ≠ b.data → getSet (g.connect a b) d' =
      getSet ⟨updateList (getItem g a.data).2.adj a.data
        (setAdd (getItem g a.data).1 b)⟩ d' := by
    intro d' hd'
    rw [hconn]
    show (lookupList (updateList _ b.data _) d').getD [] = _
    rw [lookup_updateList_ne _ hd']
    exact getSet_getItem _ b.data d'
  by_cases hdb : d = b.data
  · rw [if_pos hdb, hdb, hg4self]
    by_cases hba : b.data = a.data
    · rw [if_pos hba, hba, hg2self]
    · rw [if_neg hba, hg2other b.data hba]
  · rw [if_neg hdb, hg4other d hdb]
    by_cases hda : d = a.data
    · rw [if_pos hda, hda, hg2self]
    · rw [if_neg hda, hg2other d hda]

theorem adjOn_connect {g : Graph} {a b : AirportObj} {d e : AirportData} :
    adjOn (getSet (g.connect a b)) d e ↔
      adjOn (getSet g) d e ∨ (d = a.data ∧ e = b.data) ∨ (d = b.data ∧ e = a.data) := by
  unfold adjOn
  rw [getSet_connect]
  by_cases hdb : d = b.data
  · rw [if_pos hdb]
    by_cases hba : b.data = a.data
    · rw [if_pos hba]
      have hda : d = a.data := hdb.trans hba
      simp only [adjOn_setAdd]
      constructor
      · rintro ((h | h) | h)
        · exact Or.inl (by rw [hda]; exact h)
        · exact Or.inr (Or.inl ⟨hda, h.symm⟩)
        · exact Or.inr (Or.inr ⟨hdb, h.symm⟩)
      · rintro (h | ⟨h1, h2⟩ | ⟨h1, h2⟩)
        · rw [hda] at h
          exact Or.inl (Or.inl h)
        · exact Or.inl (Or.inr h2.symm)
        · exact Or.inr h2.symm
    · rw [if_neg hba]
      simp only [adjOn_setAdd]
      constructor
      · rintro (h | h)
        · exact Or.inl (by rw [hdb]; exact h)
        · exact Or.inr (Or.inr ⟨hdb, h.symm⟩)
      · rintro (h | ⟨h1, h2⟩ | ⟨h1, h2⟩)
        · rw [hdb] at h
          exact Or.inl h
        · exact absurd (hdb.symm.trans h1) hba
        · exact Or.inr h2.symm
  · rw [if_neg hdb]
    by_cases hda : d = a.data
    · rw [if_pos hda]
      simp only [adjOn_setAdd]
      constructor
      · rintro (h | h)
        · exact Or.inl (by rw [hda]; exact h)
        · exact Or.inr (Or.inl ⟨hda, h.symm⟩)
      · rintro (h | ⟨h1, h2⟩ | ⟨h1, h2⟩)
        · rw [hda] at h
          exact Or.inl h
        · exact Or.inr h2.symm
        · exact absurd h1 hdb
    · rw [if_neg hda]
      constructor
      · exact fun h => Or.inl h
      · rintro (h | ⟨h1, h2⟩ | ⟨h1, h2⟩)
        · exact h
        · exact absurd h1 hda
        · exact absurd h1 hdb

theorem adjOn_load_aux (tbl : String → Option AirportObj) :
    ∀ (fs : List Flight) (g0 : Graph) (d e : AirportData),
      adjOn (getSet (fs.foldl (fun world f =>
          match tbl f.origin, tbl f.destination with
          | some origin, some destination => world.connect origin destination
          | _, _ => world) g0)) d e ↔
        adjOn (getSet g0) d e ∨ ∃ f ∈ fs, ∃ ao ad, tbl f.origin = some ao ∧
          tbl f.destination = some ad ∧
          ((d = ao.data ∧ e = ad.data) ∨ (d = ad.data ∧ e = ao.data)) := by
  intro fs
  induction fs with
  | nil =>
    intro g0 d e
    simp
  | cons f t ih =>
    intro g0 d e
    rw [List.foldl_cons]
    rcases ho : tbl f.origin with _ | ao <;> rcases hde : tbl f.destination with _ | ad <;>
      simp only [ho, hde]
    · rw [ih, List.exists_mem_cons_iff]
      constructor
      · rintro (h | h)
        · exact Or.inl h
        · exact Or.inr (Or.inr h)
      · rintro (h | ⟨ao', ad', h1, h2, h3⟩ | h)
        · exact Or.inl h
        · rw [ho] at h1
          exact absurd h1 (by simp)
        · exact Or.inr h
    · rw [ih, List.exists_mem_cons_iff]
      constructor
      · rintro (h | h)
        · exact Or.inl h
        · exact Or.inr (Or.inr h)
      · rintro (h | ⟨ao', ad', h1, h2, h3⟩ | h)
        · exact Or.inl h
        · rw [ho] at h1
          exact absurd h1 (by simp)
        · exact Or.inr h
    · rw [ih, List.exists_mem_cons_iff]
      constructor
      · rintro (h | h)
        · exact Or.inl h
        · exact Or.inr (Or.inr h)
      · rintro (h | ⟨ao', ad', h1, h2, h3⟩ | h)
        · exact Or.inl h
        · rw [hde] at h2
          exact absurd h2 (by simp)
        · exact Or.inr h
    · rw [ih, adjOn_connect, List.exists_mem_cons_iff]
      constructor
      · rintro ((h | h) | h)
        · exact Or.inl h
        · exact Or.inr (Or.inl ⟨ao, ad, ho, hde, h⟩)
        · exact Or.inr (Or.inr h)
      · rintro (h | ⟨ao', ad', h1, h2, h3⟩ | h)
        · exact Or.inl (Or.inl h)
        · rw [ho] at h1
          rw [hde] at h2
          have e1 : ao' = ao := (Option.some.inj h1).symm
          have e2 : ad' = ad := (Option.some.inj h2).symm
          subst e1
          subst e2
          exact Or.inl (Or.inr h3)
        · exact Or.inr h

theorem adjOn_load (tbl : String → Option AirportObj) (fs : List Flight)
    (d e : AirportData) :
    adjOn (getSet (Graph.load tbl fs)) d e ↔
      ∃ f ∈ fs, ∃ ao ad, tbl f.origin = some ao ∧ tbl f.destination = some ad ∧
        ((d = ao.data ∧ e = ad.data) ∨ (d = ad.data ∧ e = ao.data)) := by
  unfold Graph.load
  rw [adjOn_load_aux]
  have hempty : ¬ adjOn (getSet (⟨[]⟩ : Graph)) d e := by
    rintro ⟨n, hn, _⟩
    simp [getSet, lookupList] at hn
  constructor
  · rintro (h | h)
    · exact absurd h hempty
    · exact h
  · exact fun h => Or.inr h

/-! ### Derived outcomes of the search -/

theorem getLast_cons_exists {α : Type} : ∀ (b : α) (l : List α),
    ∃ x, (b :: l).getLast? = some x
  | b, [] => ⟨b, rfl⟩
  | b, c :: l => by
    obtain ⟨x, hx⟩ := getLast_cons_exists c l
    exact ⟨x, by rw [List.getLast?_cons_cons]; exact hx⟩

theorem no_path_of_isolated {A : AirportData → List AirportObj} {s t : AirportData}
    (hst : s ≠ t) (hiso : ∀ d, ∀ n ∈ A d, n.data ≠ t) :
    ∀ P, ¬ IsDataPath A s t P := by
  rintro P ⟨hh, hl, hc⟩
  obtain ⟨l2, rfl⟩ := exists_append_of_getLast hl
  cases l2 with
  | nil =>
    simp at hh
    exact hst hh.symm
  | cons b l3 =>
    obtain ⟨x, hx⟩ := getLast_cons_exists b l3
    obtain ⟨l4, hl4⟩ := exists_append_of_getLast hx
    rw [hl4] at hc
    have hadj : adjOn A x t := chain_adj_last (by simpa [List.append_assoc] using hc)
    obtain ⟨n, hn, hnd⟩ := hadj
    exact hiso x n hn hnd

theorem dijkstra_unreachable {hav : ℚ × ℚ → ℚ × ℚ → ℚ} {g : Graph}
    {origin destination : AirportObj}
    (hnopath : ∀ P, ¬ IsDataPath (getSet g) origin.data destination.data P) :
    ∃ gout, g.dijkstra hav origin destination = some (.infinity, gout) := by
  have hs := dijkstra_isSome hav g origin destination
  rcases hout : g.dijkstra hav origin destination with _ | ⟨out, gout⟩
  · rw [hout] at hs
    simp at hs
  · cases out with
    | infinity => exact ⟨gout, rfl⟩
    | route p pa =>
      obtain ⟨hh, hl, hc, hp, _⟩ := dijkstra_route_spec hout
      exfalso
      apply hnopath (pa.map (fun n => n.data))
      refine ⟨?_, ?_, hc⟩
      · rw [List.head?_map, hh]
        rfl
      · rw [List.getLast?_map, hl]
        rfl

theorem mem_getSet_entry {g : Graph} {d : AirportData} {n : AirportObj}
    (hn : n ∈ getSet g d) : ∃ e ∈ g.adj, n ∈ e.2 := by
  unfold getSet at hn
  cases hlk : lookupList g.adj d with
  | none => rw [hlk] at hn; simp at hn
  | some s =>
    rw [hlk] at hn
    simp only [Option.getD_some] at hn
    exact ⟨(d, s), mem_of_lookup_some hlk, hn⟩

theorem dijkstra_dest_unstored {hav : ℚ × ℚ → ℚ × ℚ → ℚ} {g : Graph}
    {origin destination : AirportObj}
    (hiso : ∀ e ∈ g.adj, destination ∉ e.2) :
    ∃ gout, g.dijkstra hav origin destination = some (.infinity, gout) := by
  have hs := dijkstra_isSome hav g origin destination
  rcases hout : g.dijkstra hav origin destination with _ | ⟨out, gout⟩
  · rw [hout] at hs
    simp at hs
  · cases out with
    | infinity => exact ⟨gout, rfl⟩
    | route p pa =>
      obtain ⟨_, _, _, _, hd, hmem⟩ := dijkstra_route_spec hout
      obtain ⟨e, he, hne⟩ := mem_getSet_entry hmem
      exact absurd hne (hiso e he)

theorem dijkstra_self_data {hav : ℚ × ℚ → ℚ × ℚ → ℚ} {g : Graph}
    {origin destination : AirportObj} (hdd : destination.data = origin.data) :
    ∃ gout, g.dijkstra hav origin destination = some (.infinity, gout) := by
  have hs := dijkstra_isSome hav g origin destination
  rcases hout : g.dijkstra hav origin destination with _ | ⟨out, gout⟩
  · rw [hout] at hs
    simp at hs
  · have hout2 := hout
    simp only [Graph.dijkstra] at hout2
    have hinfty := loop_no_route hav destination _ _ _ _ out gout hout2
      (by rw [hdd]; exact List.mem_singleton.mpr rfl)
    exact ⟨gout, by rw [hinfty]⟩

/-! ### Claim theorems -/

/-- C1: for every graph with non-negative edge costs, whenever `dijkstra`
returns a Route its price is the global minimum over all paths in the
graph from origin to destination (the returned path is itself such a
path and its cost equals the returned price, and every path costs at
least as much); in particular, on the triangle A-B, B-C, A-C with
cost(A,C) greater than cost(A,B) + cost(B,C), the search from A to C
returns the two-hop path [A, B, C] with its price, not [A, C]. -/
theorem dijkstra_route_is_global_minimum :
    (∀ (hav : ℚ × ℚ → ℚ × ℚ → ℚ) (g : Graph) (origin destination : AirportObj)
      (p : ℚ) (pa : List AirportObj) (gout : Graph),
      (∀ q1 q2, 0 ≤ hav q1 q2) →
      g.dijkstra hav origin destination = some (.route p pa, gout) →
      IsDataPath (getSet g) origin.data destination.data
        (pa.map (fun n => n.data)) ∧
      p = pathCost hav (pa.map (fun n => n.data)) ∧
      ∀ P, IsDataPath (getSet g) origin.data destination.data P →
        p ≤ pathCost hav P) ∧
    gTri.dijkstra hvTri oA oC = some (.route (1 / 5) [oA, oB, oC], gTri) := by
  constructor
  · intro hav g origin destination p pa gout hnn h
    obtain ⟨hh, hl, hc, hp, _⟩ := dijkstra_route_spec h
    refine ⟨⟨by rw [List.head?_map, hh]; rfl, by rw [List.getLast?_map, hl]; rfl, hc⟩,
      hp, ?_⟩
    rintro P ⟨h1, h2, h3⟩
    exact dijkstra_minimal_spec hnn h P h1 h3 h2
  · with_unfolding_all decide

/-- Witness for C1: applying the theorem to the concrete triangle shows
the returned price 1/5 is bounded by the cost of the direct path
[A, C], which the graph does contain. -/
theorem dijkstra_route_is_global_minimum_witness :
    IsDataPath (getSet gTri) oA.data oC.data [dA, dC] ∧
    (1 : ℚ) / 5 ≤ pathCost hvTri [dA, dC] := by
  have hnn : ∀ q1 q2, 0 ≤ hvTri q1 q2 := by
    intro q1 q2
    unfold hvTri
    split_ifs <;> norm_num
  have hpath : IsDataPath (getSet gTri) oA.data oC.data [dA, dC] := by
    with_unfolding_all decide
  exact ⟨hpath,
    (dijkstra_route_is_global_minimum.1 hvTri gTri oA oC (1 / 5) [oA, oB, oC] gTri hnn
      dijkstra_route_is_global_minimum.2).2.2 [dA, dC] hpath⟩

/-- C2 counterexample: with the single edge A-B, searching from A to A
returns the float infinity, not a Route of cost 0 with path [A]; the
loop marks the origin visited before it ever tests for arrival, so the
zero-hop route is never produced. -/
theorem dijkstra_self_counterexample :
    gAB.dijkstra hv0 oA oA = some (.infinity, gAB) ∧
    SearchOutcome.infinity ≠ SearchOutcome.route 0 [oA] := by
  with_unfolding_all decide

/-- C2 amended: for every graph and node X, the search with origin and
destination both X reports NOT_FOUND (the float infinity), because any
route arriving back at the origin is discarded as visited before the
arrival test runs; it never yields the cost 0 route [X]. -/
theorem dijkstra_self_returns_infinity :
    ∀ (hav : ℚ × ℚ → ℚ × ℚ → ℚ) (g : Graph) (x : AirportObj),
      ∃ gout, g.dijkstra hav x x = some (.infinity, gout) :=
  fun _ _ _ => dijkstra_self_data rfl

/-- C3: when no path of graph edges joins the origin's value to the
destination's value, the search terminates (it returns a value rather
than running forever or raising) and reports NOT_FOUND, the float
infinity. -/
theorem dijkstra_unreachable_not_found :
    ∀ (hav : ℚ × ℚ → ℚ × ℚ → ℚ) (g : Graph) (origin destination : AirportObj),
      (∀ P, ¬ IsDataPath (getSet g) origin.data destination.data P) →
      ∃ gout, g.dijkstra hav origin destination = some (.infinity, gout) :=
  fun _ _ _ _ h => dijkstra_unreachable h

/-- Witness for C3: in the graph with the single edge A-B the airport C
is unreachable from A, and the search reports infinity. -/
theorem dijkstra_unreachable_not_found_witness :
    ∃ gout, gAB.dijkstra hv0 oA oC = some (.infinity, gout) :=
  dijkstra_unreachable_not_found hv0 gAB oA oC
    (no_path_of_isolated (by with_unfolding_all decide)
      (fun d n hn hc => by
        obtain ⟨e, he, hne⟩ := mem_getSet_entry hn
        have hall : ∀ e2 ∈ gAB.adj, ∀ n2 ∈ e2.2, n2.data ≠ oC.data := by
          with_unfolding_all decide
        exact hall e he n hne hc))

/-- C4 counterexample: after `get_price(A, B)` has stored its entry, the
call `get_price(B, A)` does not hit that entry: it recomputes (the miss
flag is true) and the cache ends up holding two entries for the same
unordered pair, because `functools.lru_cache` keys on the ordered
argument tuple. -/
theorem get_price_cache_counterexample :
    (get_price_cached hv0 (get_price_cached hv0 [] oA oB).2.1 oB oA).2.2 = true ∧
    (get_price_cached hv0 (get_price_cached hv0 [] oA oB).2.1 oB oA).2.1.length = 2 := by
  with_unfolding_all decide

/-- C4 amended: the cache is keyed by the ordered pair of node values.
`get_price(B, A)` after `get_price(A, B)` returns an equal price
whenever the distance function is symmetric, but for distinct nodes it
recomputes and stores a second entry under the reversed key rather than
hitting the stored one. -/
theorem get_price_cache_ordered :
    ∀ (hav : ℚ × ℚ → ℚ × ℚ → ℚ) (a b : AirportObj),
      (∀ p q, hav p q = hav q p) →
      (get_price_cached hav (get_price_cached hav [] a b).2.1 b a).1 =
        (get_price_cached hav [] a b).1 ∧
      (a.data ≠ b.data →
        (get_price_cached hav (get_price_cached hav [] a b).2.1 b a).2.2 = true ∧
        (get_price_cached hav (get_price_cached hav [] a b).2.1 b a).2.1 =
          [((a.data, b.data), priceData hav a.data b.data),
            ((b.data, a.data), priceData hav b.data a.data)]) := by
  intro hav a b hsym
  have hsymp : priceData hav b.data a.data = priceData hav a.data b.data := by
    unfold priceData
    rw [hsym]
  have hfirst : get_price_cached hav [] a b =
      (priceData hav a.data b.data,
        [((a.data, b.data), priceData hav a.data b.data)], true) := rfl
  rw [hfirst]
  by_cases hab : a.data = b.data
  · have hkey : ((a.data, b.data) : AirportData × AirportData) = (b.data, a.data) := by
      rw [hab]
    have hsnd : get_price_cached hav
        [((a.data, b.data), priceData hav a.data b.data)] b a =
        (priceData hav a.data b.data,
          [((a.data, b.data), priceData hav a.data b.data)], false) := by
      unfold get_price_cached
      rw [show lookupList [((a.data, b.data), priceData hav a.data b.data)]
          (b.data, a.data) = some (priceData hav a.data b.data) from by
        unfold lookupList
        rw [if_pos hkey]]
    rw [hsnd]
    exact ⟨rfl, fun h => absurd hab h⟩
  · have hkey : ((a.data, b.data) : AirportData × AirportData) ≠ (b.data, a.data) := by
      intro he
      injection he with h1 h2
      exact hab h1
    have hsnd : get_price_cached hav
        [((a.data, b.data), priceData hav a.data b.data)] b a =
        (priceData hav b.data a.data,
          [((a.data, b.data), priceData hav a.data b.data),
            ((b.data, a.data), priceData hav b.data a.data)], true) := by
      unfold get_price_cached
      rw [show lookupList [((a.data, b.data), priceData hav a.data b.data)]
          (b.data, a.data) = none from by
        unfold lookupList
        rw [if_neg hkey]
        rfl]
      rfl
    rw [hsnd]
    exact ⟨hsymp, fun _ => ⟨rfl, rfl⟩⟩

/-- Witness for C4 amended: the concrete airports A and B with a
symmetric distance function exhibit the equal returned prices, the
recomputation, and the two stored entries. -/
theorem get_price_cache_ordered_witness :
    ((get_price_cached hv0 (get_price_cached hv0 [] oA oB).2.1 oB oA).1 =
      (get_price_cached hv0 [] oA oB).1) ∧
    ((get_price_cached hv0 (get_price_cached hv0 [] oA oB).2.1 oB oA).2.2 = true ∧
      (get_price_cached hv0 (get_price_cached hv0 [] oA oB).2.1 oB oA).2.1 =
        [((oA.data, oB.data), priceData hv0 oA.data oB.data),
          ((oB.data, oA.data), priceData hv0 oB.data oA.data)]) :=
  ⟨(get_price_cache_ordered hv0 oA oB (fun _ _ => rfl)).1,
    (get_price_cache_ordered hv0 oA oB (fun _ _ => rfl)).2
      (by with_unfolding_all decide)⟩

/-- C5 counterexample: running the search on the empty graph mutates the
adjacency mapping: the `defaultdict` read `self._neighbors[origin]`
inserts an empty entry for the unknown origin, so the mapping after the
search differs from the mapping before it. -/
theorem dijkstra_mutates_counterexample :
    gEmpty.dijkstra hv0 oA oB = some (.infinity, ⟨[(dA, [])]⟩) ∧
    (⟨[(dA, [])]⟩ : Graph) ≠ gEmpty := by
  with_unfolding_all decide

/-- C5 amended: the search leaves the node-to-neighbor mapping exactly
as it was provided the origin is a key of the mapping and every stored
neighbor's value is itself a key (as holds for every graph built by
`connect`); only a search from an unknown origin inserts one empty
entry for it. -/
theorem dijkstra_preserves_graph :
    ∀ (hav : ℚ × ℚ → ℚ × ℚ → ℚ) (g : Graph) (origin destination : AirportObj),
      lookupList g.adj origin.data ≠ none →
      (∀ e ∈ g.adj, ∀ n ∈ e.2, lookupList g.adj n.data ≠ none) →
      ∃ out, g.dijkstra hav origin destination = some (out, g) := by
  intro hav g origin destination hkey hclosed
  have hs := dijkstra_isSome hav g origin destination
  rcases hout : g.dijkstra hav origin destination with _ | ⟨out, gout⟩
  · rw [hout] at hs
    simp at hs
  · have heq := dijkstra_graph_eq hout hkey hclosed
    exact ⟨out, by rw [heq]⟩

/-- Witness for C5 amended: on the graph with edge A-B, whose keys are
closed, the search from A to B returns with the graph untouched. -/
theorem dijkstra_preserves_graph_witness :
    ∃ out, gAB.dijkstra hv0 oA oB = some (out, gAB) :=
  dijkstra_preserves_graph hv0 gAB oA oB (by with_unfolding_all decide)
    (by with_unfolding_all decide)

/-- C6: the search always terminates: for every finite graph and every
origin and destination, the loop finishes within the explicit fuel
bound `fuelBound` (one pop per initial queue entry plus, for each
settleable node, its settling pop and the pushes it can cause), so
`dijkstra` returns a value instead of exhausting the fuel. -/
theorem dijkstra_terminates :
    ∀ (hav : ℚ × ℚ → ℚ × ℚ → ℚ) (g : Graph) (origin destination : AirportObj),
      (g.dijkstra hav origin destination).isSome = true :=
  fun hav g origin destination => dijkstra_isSome hav g origin destination

/-- C7: graph loading silently skips every edge with an unknown
endpoint: the loaded graph holds an adjacency between two node values
exactly when some flight row joins them, in either direction, with both
its origin and destination codes present in the airport table. -/
theorem load_skips_unknown_edges :
    ∀ (tbl : String → Option AirportObj) (flights : List Flight) (d e : AirportData),
      adjOn (getSet (Graph.load tbl flights)) d e ↔
        ∃ f ∈ flights, ∃ ao ad, tbl f.origin = some ao ∧
          tbl f.destination = some ad ∧
          ((d = ao.data ∧ e = ad.data) ∨ (d = ad.data ∧ e = ao.data)) :=
  fun tbl flights d e => adjOn_load tbl flights d e

/-- C8: `neighbors` never fails: it returns exactly the stored neighbor
set of the node's value, and the empty sequence when the node has no
recorded edges (in particular for nodes never added to the graph). -/
theorem neighbors_total :
    ∀ (g : Graph) (node : AirportObj),
      (g.neighbors node).1 = getSet g node.data ∧
      (lookupList g.adj node.data = none → (g.neighbors node).1 = []) := by
  intro g node
  refine ⟨getItem_fst g node.data, fun h => ?_⟩
  show (getItem g node.data).1 = []
  rw [getItem_fst]
  unfold getSet
  rw [h]
  rfl

/-- Witness for C8: the airport C was never added to the A-B graph, and
`neighbors` returns the empty sequence for it. -/
theorem neighbors_total_witness :
    (gAB.neighbors oC).1 = getSet gAB oC.data ∧ (gAB.neighbors oC).1 = [] :=
  ⟨(neighbors_total gAB oC).1,
    (neighbors_total gAB oC).2 (by with_unfolding_all decide)⟩

/-- C9: arrival is recognized by object identity only: a returned
route's final element is the very destination object passed in; and
when the destination object is not itself stored in any neighbor set
(for instance a value-equal copy of a stored node), the search exhausts
the queue and reports infinity even if a connecting path of values
exists. -/
theorem dijkstra_identity_check :
    (∀ (hav : ℚ × ℚ → ℚ × ℚ → ℚ) (g : Graph) (origin destination : AirportObj)
      (p : ℚ) (pa : List AirportObj) (gout : Graph),
      g.dijkstra hav origin destination = some (.route p pa, gout) →
      pa.getLast? = some destination) ∧
    (∀ (hav : ℚ × ℚ → ℚ × ℚ → ℚ) (g : Graph) (origin destination : AirportObj),
      (∀ e ∈ g.adj, destination ∉ e.2) →
      ∃ gout, g.dijkstra hav origin destination = some (.infinity, gout)) :=
  ⟨fun _ _ _ _ _ _ _ h => (dijkstra_route_spec h).2.1,
    fun _ _ _ _ hiso => dijkstra_dest_unstored hiso⟩

/-- Witness for C9: `oBcopy` is a distinct object with the same field
values as the stored node B; although the graph connects A to that
value, the search from A to `oBcopy` reports infinity. -/
theorem dijkstra_identity_check_witness :
    (∃ gout, gAB.dijkstra hv0 oA oBcopy = some (.infinity, gout)) ∧
    oBcopy.data = oB.data ∧ oBcopy ≠ oB ∧
    adjOn (getSet gAB) oA.data oBcopy.data :=
  ⟨dijkstra_identity_check.2 hv0 gAB oA oBcopy (by with_unfolding_all decide),
    by with_unfolding_all decide, by with_unfolding_all decide,
    by with_unfolding_all decide⟩

/-- C10: the two outcomes have different shapes: a successful search
returns the two-component Route, which unpacking into (price, path)
accepts, while the no-path outcome is the single float infinity, which
such unpacking rejects; the empty-graph search concretely produces the
infinity outcome. -/
theorem dijkstra_outcome_shapes :
    (∀ (hav : ℚ × ℚ → ℚ × ℚ → ℚ) (g : Graph) (origin destination : AirportObj)
      (out : SearchOutcome) (gout : Graph),
      g.dijkstra hav origin destination = some (out, gout) →
      (∃ p pa, out = .route p pa ∧ unpack2 out = some (p, pa)) ∨
        (out = .infinity ∧ unpack2 out = none)) ∧
    (gEmpty.dijkstra hv0 oA oB = some (.infinity, ⟨[(dA, [])]⟩) ∧
      unpack2 .infinity = none) := by
  constructor
  · intro hav g origin destination out gout h
    cases out with
    | route p pa => exact Or.inl ⟨p, pa, rfl, rfl⟩
    | infinity => exact Or.inr ⟨rfl, rfl⟩
  · exact ⟨by with_unfolding_all decide, rfl⟩

/-- Witness for C10: the successful search on the A-B graph yields the
Route shape, which unpacks into the pair. -/
theorem dijkstra_outcome_shapes_witness :
    (∃ p pa, SearchOutcome.route (0 : ℚ) [oA, oB] = .route p pa ∧
      unpack2 (.route (0 : ℚ) [oA, oB]) = some (p, pa)) ∨
      (SearchOutcome.route (0 : ℚ) [oA, oB] = .infinity ∧
        unpack2 (.route (0 : ℚ) [oA, oB]) = none) :=
  dijkstra_outcome_shapes.1 hv0 gAB oA oB (.route 0 [oA, oB]) gAB
    (by with_unfolding_all decide)
